import Mathlib

/-!
Shallow embedding of the tinySTM write-back encounter-time-locking core
(src/stm_internal.h, src/stm_wbetl.h, src/stm.c) and proofs about it.

Modelling conventions:
* `stm_word_t` is a 64-bit machine word, embedded as `Nat`; wherever C
  overflow semantics matter the operation is reduced modulo `2 ^ WORD_BITS`.
* The lock table is a total map from lock index (the hash `LOCK_IDX` of an
  address) to an abstract lock word `LockWord`.  A free lock carries its
  version timestamp (`LOCK_GET_TIMESTAMP` of the concrete word); an owned
  lock carries either an index into this transaction's write-set array
  (the C code stores the entry's address and tests whether it falls inside
  `tx->w_set.entries .. + nb_entries`; an in-range pointer corresponds
  exactly to a valid index) or the marker `ownedOther` for a pointer into
  some other transaction's write set.  The concrete bit-level encoding
  macros are embedded separately on `Nat` for the bit-exact facts.
* The development models one transaction running without interference from
  other threads, which is the granularity at which the cited code paths
  execute between their atomic accesses: atomic loads return the current
  state, the CAS in `stm_wbetl_write` succeeds, and the lock re-reads in
  `stm_wbetl_read_invisible` return the value read before.
* `setjmp`/`longjmp` is modelled by the `RollbackOutcome` type: `retry r`
  is the non-returning jump to the retry continuation with value `r`, and
  `noRetry` is the normal return taken when no retry is wanted.
* Bucket walks through `w_entry.next` pointers are fueled; a walk that
  would not terminate in C (cyclic bucket, never produced by the code)
  ends in a `stuck` result.
-/

namespace TinySTM

/-! ### Constants (stm_internal.h) -/

def WORD_BITS : Nat := 64

def WORD_SIZE : Nat := 2 ^ WORD_BITS

/-- All-ones machine word, the value of `~(stm_word_t)0`. -/
def WORD_FULL : Nat := 2 ^ WORD_BITS - 1

def OWNED_BITS : Nat := 1

def INCARNATION_BITS : Nat := 3

def LOCK_BITS : Nat := OWNED_BITS + INCARNATION_BITS

def MAX_THREADS : Nat := 8192

def VERSION_MAX : Nat := (WORD_FULL >>> LOCK_BITS) - MAX_THREADS

def WRITE_MASK : Nat := 0x01

def OWNED_MASK : Nat := WRITE_MASK

def INCARNATION_MAX : Nat := (1 <<< INCARNATION_BITS) - 1

def INCARNATION_MASK : Nat := INCARNATION_MAX <<< 1

def LOCK_ARRAY_LOG_SIZE : Nat := 20

def LOCK_ARRAY_SIZE : Nat := 1 <<< LOCK_ARRAY_LOG_SIZE

def LOCK_MASK : Nat := LOCK_ARRAY_SIZE - 1

def LOCK_SHIFT_EXTRA : Nat := 2

/-- With `sizeof(stm_word_t) = 8` the word shift is 3, plus the extra 2. -/
def LOCK_SHIFT : Nat := 3 + LOCK_SHIFT_EXTRA

/-! ### Lock-word bit macros (stm_internal.h lines 136-154), on concrete words -/

def LOCK_GET_OWNED (l : Nat) : Nat := l &&& OWNED_MASK

def LOCK_GET_WRITE (l : Nat) : Nat := l &&& WRITE_MASK

def LOCK_SET_ADDR_WRITE (a : Nat) : Nat := a ||| WRITE_MASK

def LOCK_GET_ADDR (l : Nat) : Nat := l &&& (WORD_FULL ^^^ OWNED_MASK)

def LOCK_GET_TIMESTAMP (l : Nat) : Nat := l >>> LOCK_BITS

def LOCK_SET_TIMESTAMP (t : Nat) : Nat := (t <<< LOCK_BITS) % WORD_SIZE

def LOCK_GET_INCARNATION (l : Nat) : Nat := (l &&& INCARNATION_MASK) >>> OWNED_BITS

/-- Hash from address to lock-table index: `((stm_word_t)a >> LOCK_SHIFT) & LOCK_MASK`. -/
def LOCK_IDX (a : Nat) : Nat := (a >>> LOCK_SHIFT) &&& LOCK_MASK

/-! ### Transaction status values (stm_internal.h enum) -/

def TX_IDLE : Nat := 0

def TX_ACTIVE : Nat := 1

def TX_COMMITTED : Nat := 1 <<< 1

def TX_ABORTED : Nat := 2 <<< 1

def TX_COMMITTING : Nat := (1 <<< 1) ||| TX_ACTIVE

def TX_ABORTING : Nat := (2 <<< 1) ||| TX_ACTIVE

def TX_KILLED : Nat := (3 <<< 1) ||| TX_ACTIVE

def IS_ACTIVE (s : Nat) : Bool := (s &&& 0x01) == TX_ACTIVE

/-! ### Abort reasons

Modelled from the spec: the numeric values of the `STM_ABORT_*` reason
codes come from the public header `stm.h`, which is not part of the three
source files; the spec describes them as a bitfield of distinct reason
bits ORed together ("Abort reason bits (bitfield ORed)"), so each reason
is given its own bit here.  `STM_PATH_INSTRUMENTED` is the low bit ORed
into the value passed to the retry continuation. -/

def STM_PATH_INSTRUMENTED : Nat := 0x01

def STM_ABORT_EXPLICIT : Nat := 1 <<< 4

def STM_ABORT_NO_RETRY : Nat := 1 <<< 5

def STM_ABORT_RW_CONFLICT : Nat := 1 <<< 6

def STM_ABORT_WW_CONFLICT : Nat := 1 <<< 7

def STM_ABORT_VAL_READ : Nat := 1 <<< 8

def STM_ABORT_VAL_WRITE : Nat := 1 <<< 9

def STM_ABORT_VALIDATE : Nat := 1 <<< 10

def STM_ABORT_EXTEND_WS : Nat := 1 <<< 11

def STM_ABORT_IRREVOCABLE : Nat := 1 <<< 12

/-! ### Data model (stm_internal.h types) -/

/-- Read set entry: version read and (index of) the lock it was read from. -/
structure r_entry where
  version : Nat
  lock : Nat
deriving Repr, DecidableEq

/-- Write set entry.  `next` links entries of the same per-lock bucket and is
an index into the transaction's write-set array (a pointer in C). -/
structure w_entry where
  addr : Nat
  value : Nat
  mask : Nat
  version : Nat
  lock : Nat
  next : Option Nat
deriving Repr, DecidableEq

instance : Inhabited w_entry := ⟨⟨0, 0, 0, 0, 0, none⟩⟩

/-- Abstract lock word.  `free v` is an unowned word of timestamp `v`;
`ownedSelf i` is an owned word whose pointer falls inside this
transaction's write-set array at entry index `i`; `ownedOther` is an owned
word whose pointer falls outside it (another transaction's entry). -/
inductive LockWord where
  | free (version : Nat)
  | ownedSelf (idx : Nat)
  | ownedOther
deriving Repr, DecidableEq

/-- Transaction descriptor (fields relevant to the embedded code paths).
`w_set` is the entry array in insertion order, `w_set_size` its allocated
capacity, `has_writes` the counter of real writes; `read_only` and
`no_retry` are the `attr` bits used by the core. -/
structure stm_tx where
  status : Nat
  start : Nat
  end_ : Nat
  r_set : List r_entry
  w_set : List w_entry
  w_set_size : Nat
  nesting : Nat
  read_only : Bool
  no_retry : Bool
  has_writes : Nat
deriving Repr, DecidableEq

/-- Shared state: application memory, the lock table (indexed by `LOCK_IDX`
hash values) and the global clock. -/
structure Global where
  mem : Nat → Nat
  locks : Nat → LockWord
  clock : Nat

/-- Pointwise function update, used for atomic stores to memory and locks. -/
def updFn {α : Type} (f : Nat → α) (k : Nat) (v : α) : Nat → α :=
  fun x => if x = k then v else f x

/-! ### Rollback outcome

`retry r tx` models the non-returning `LONGJMP(tx->env, r)` into the retry
continuation with the descriptor re-prepared; `noRetry tx` models
`stm_rollback` returning normally (taken when `attr.no_retry` is set or
the reason carries the `NO_RETRY` bit). -/

inductive RollbackOutcome where
  | retry (reason : Nat) (tx : stm_tx)
  | noRetry (tx : stm_tx)

/-! ### stm_wbetl_validate (stm_wbetl.h lines 33-67) -/

/-- Validate the read set: every read entry must have its lock either owned
with the pointer inside our write-set array, or free at the recorded
version.  The C loop returns 0 at the first failing entry. -/
def stm_wbetl_validate (tx : stm_tx) (locks : Nat → LockWord) : Bool :=
  tx.r_set.all fun r =>
    match locks r.lock with
    | .ownedSelf idx => decide (idx < tx.w_set.length)
    | .ownedOther => false
    | .free v => v == r.version

/-! ### stm_wbetl_extend (stm_wbetl.h lines 72-91) -/

/-- Snapshot extension: read `now = GET_CLOCK`; if the read set validates,
set `tx->end = now` and return 1, else return 0 leaving `end` unchanged. -/
def stm_wbetl_extend (tx : stm_tx) (g : Global) : Bool × stm_tx :=
  let now := g.clock
  if stm_wbetl_validate tx g.locks then (true, { tx with end_ := now })
  else (false, tx)

/-! ### stm_wbetl_rollback (stm_wbetl.h lines 93-116) -/

/-- Drop locks on rollback: for each write entry whose `next` is null (the
tail of its per-lock bucket), atomically store `LOCK_SET_TIMESTAMP(w->version)`
into its lock, restoring the captured pre-transaction version. -/
def stm_wbetl_rollback (tx : stm_tx) (locks : Nat → LockWord) : Nat → LockWord :=
  tx.w_set.foldl
    (fun lks w =>
      match w.next with
      | none => updFn lks w.lock (.free w.version)
      | some _ => lks)
    locks

/-! ### stm_has_read (stm_internal.h lines 503-521) -/

/-- Linear scan of the read set for an entry on the given lock; the C loop
returns the first match. -/
def stm_has_read (tx : stm_tx) (lock : Nat) : Option r_entry :=
  tx.r_set.find? fun r => r.lock == lock

/-! ### int_stm_prepare (stm_internal.h lines 593-618) -/

/-- Prepare the descriptor before start or restart: clear both sets and
`has_writes`, set `start = end = GET_CLOCK` (after a quiescent clock
rollover when the clock reached `VERSION_MAX`, which zeroes the clock and
every lock word), and set the status to `TX_ACTIVE`.  The rollover barrier
`stm_quiesce_barrier(tx, rollover_clock, NULL)` runs its action directly
in this single-transaction model. -/
def int_stm_prepare (tx : stm_tx) (g : Global) : stm_tx × Global :=
  if VERSION_MAX ≤ g.clock then
    ({ tx with
        has_writes := 0, w_set := [], r_set := [],
        start := 0, end_ := 0, status := TX_ACTIVE },
      { g with clock := 0, locks := fun _ => .free 0 })
  else
    ({ tx with
        has_writes := 0, w_set := [], r_set := [],
        start := g.clock, end_ := g.clock, status := TX_ACTIVE },
      g)

/-! ### stm_rollback (stm_internal.h lines 623-670) -/

/-- Roll back a transaction: drop the owned locks, set the status to
`TX_ABORTED`, double the write-set capacity when the reason is
`EXTEND_WS`, reset `nesting` to 1, and then either return normally with
`nesting = 0` (when `attr.no_retry` is set or the reason carries the
`NO_RETRY` bit) or re-prepare the descriptor and jump to the retry
continuation with `reason | STM_PATH_INSTRUMENTED`. -/
def stm_rollback (tx : stm_tx) (g : Global) (reason : Nat) :
    RollbackOutcome × Global :=
  if tx.no_retry || (reason &&& STM_ABORT_NO_RETRY) == STM_ABORT_NO_RETRY then
    (.noRetry
      { tx with
        status := TX_ABORTED,
        w_set_size :=
          if reason = STM_ABORT_EXTEND_WS then tx.w_set_size * 2 else tx.w_set_size,
        nesting := 0 },
      { g with locks := stm_wbetl_rollback tx g.locks })
  else
    (.retry (reason ||| STM_PATH_INSTRUMENTED)
      (int_stm_prepare
        { tx with
          status := TX_ABORTED,
          w_set_size :=
            if reason = STM_ABORT_EXTEND_WS then tx.w_set_size * 2 else tx.w_set_size,
          nesting := 1 }
        { g with locks := stm_wbetl_rollback tx g.locks }).1,
      (int_stm_prepare
        { tx with
          status := TX_ABORTED,
          w_set_size :=
            if reason = STM_ABORT_EXTEND_WS then tx.w_set_size * 2 else tx.w_set_size,
          nesting := 1 }
        { g with locks := stm_wbetl_rollback tx g.locks }).2)

/-! ### int_stm_aborted (stm_internal.h lines 899-904) -/

def int_stm_aborted (tx : stm_tx) : Bool := tx.status == TX_ABORTED

/-! ### Bucket walks

The loops in `stm_wbetl_read_invisible` and `stm_wbetl_write` that follow
`w->next` links are fueled; `ws.length` steps suffice on any acyclic
bucket inside the array. -/

/-- Result of the bucket walk in `stm_wbetl_write`: the index of the entry
matching the address, or the index of the bucket tail (`next == NULL`), or
`bad` when the walk leaves the array or runs out of fuel. -/
inductive BucketFind where
  | found (i : Nat)
  | tail (i : Nat)
  | bad
deriving Repr, DecidableEq

/-- Walk of the `while (1)` loop of `stm_wbetl_write` over a bucket. -/
def bucket_find (ws : List w_entry) (addr : Nat) : Nat → Nat → BucketFind
  | 0, _ => .bad
  | fuel + 1, i =>
    match ws[i]? with
    | none => .bad
    | some w =>
      if w.addr = addr then .found i
      else
        match w.next with
        | none => .tail i
        | some j => bucket_find ws addr fuel j

/-- Walk of the `while (1)` loop of `stm_wbetl_read_invisible`: return the
entry's value at an address match (or memory when its mask is 0), and the
memory value when the bucket tail is passed without a match. -/
def bucket_read (ws : List w_entry) (mem : Nat → Nat) (addr : Nat) :
    Nat → Nat → Option Nat
  | 0, _ => none
  | fuel + 1, i =>
    match ws[i]? with
    | none => none
    | some w =>
      if w.addr = addr then some (if w.mask = 0 then mem addr else w.value)
      else
        match w.next with
        | none => some (mem addr)
        | some j => bucket_read ws mem addr fuel j

/-! ### stm_wbetl_read_invisible (stm_wbetl.h lines 121-227) -/

/-- Result of a transactional load.  `abort reason out g` records that
`stm_rollback(tx, reason)` ran, with its outcome and the resulting shared
state; `stuck` stands for the walks the C code would never finish
(possible only on malformed states). -/
inductive LoadResult where
  | ok (value : Nat) (tx : stm_tx)
  | abort (reason : Nat) (out : RollbackOutcome) (g : Global)
  | stuck

/-- Tail of the load path once a good version is at hand: add
`(lock, version)` to the read set unless the transaction is read-only,
and return the value. -/
def read_finish (tx : stm_tx) (lock version value : Nat) : LoadResult :=
  if tx.read_only then .ok value tx
  else .ok value { tx with r_set := tx.r_set ++ [⟨version, lock⟩] }

/-- Invisible read.  Owned-by-us locks are served from the bucket walk
without touching the read set; owned-by-others aborts with `RW_CONFLICT`;
free locks read the value and, on a version above `tx->end`, attempt a
snapshot extension, aborting with `VAL_READ` for read-only transactions or
when the extension fails.  The lock re-reads of the lock/value/lock
sandwich return the same word in this interference-free model, so the
`restart` paths are not taken. -/
def stm_wbetl_read_invisible (tx : stm_tx) (g : Global) (addr : Nat) :
    LoadResult :=
  let lock := LOCK_IDX addr
  match g.locks lock with
  | .ownedSelf idx =>
    if idx < tx.w_set.length then
      match bucket_read tx.w_set g.mem addr tx.w_set.length idx with
      | some value => .ok value tx
      | none => .stuck
    else
      let r := stm_rollback tx g STM_ABORT_RW_CONFLICT
      .abort STM_ABORT_RW_CONFLICT r.1 r.2
  | .ownedOther =>
    let r := stm_rollback tx g STM_ABORT_RW_CONFLICT
    .abort STM_ABORT_RW_CONFLICT r.1 r.2
  | .free l =>
    let value := g.mem addr
    let version := l
    if tx.end_ < version then
      if tx.read_only then
        let r := stm_rollback tx g STM_ABORT_VAL_READ
        .abort STM_ABORT_VAL_READ r.1 r.2
      else
        match stm_wbetl_extend tx g with
        | (false, _) =>
          let r := stm_rollback tx g STM_ABORT_VAL_READ
          .abort STM_ABORT_VAL_READ r.1 r.2
        | (true, tx1) => read_finish tx1 lock version value
    else read_finish tx lock version value

/-! ### stm_wbetl_write (stm_wbetl.h lines 236-361) -/

/-- Result of a transactional store: the updated descriptor and shared
state together with the index of the returned write-set entry, or a
rollback, or a walk the C code would never finish. -/
inductive WriteResult where
  | ok (tx : stm_tx) (g : Global) (widx : Nat)
  | abort (reason : Nat) (out : RollbackOutcome) (g : Global)
  | stuck

/-- The `do_write` tail of `stm_wbetl_write`: populate a fresh entry at the
end of the array (`w->value` is left 0 when the mask is 0, per the
`!NDEBUG` branch; with a partial mask the value is merged with memory),
link it behind `prev` when the bucket already existed, and bump
`nb_entries` and `has_writes`. -/
def do_write (tx : stm_tx) (g : Global) (addr value mask version lock : Nat)
    (prev : Option Nat) : WriteResult :=
  let wvalue :=
    if mask = 0 then 0
    else if mask ≠ WORD_FULL then
      (g.mem addr &&& (WORD_FULL ^^^ mask)) ||| (value &&& mask)
    else value
  let w : w_entry := ⟨addr, wvalue, mask, version, lock, none⟩
  let ws :=
    match prev with
    | some p =>
      (tx.w_set.set p { tx.w_set.getD p default with next := some tx.w_set.length })
        ++ [w]
    | none => tx.w_set ++ [w]
  .ok { tx with w_set := ws, has_writes := tx.has_writes + 1 } g tx.w_set.length

/-- Encounter-time-locking store.  On a lock owned by us: return the
pointed-to entry at once when the mask is 0; otherwise walk the bucket and
either merge in place at an address match or append a new entry behind the
tail (aborting with `EXTEND_WS` when the array is full).  On a lock owned
by another transaction: abort with `WW_CONFLICT`.  On a free lock: abort
with `VAL_WRITE` when the version is above `tx->end` and the lock was read
before, abort with `EXTEND_WS` when the array is full, otherwise CAS the
lock to point at the fresh entry (the CAS succeeds in this
interference-free model) and populate it. -/
def stm_wbetl_write (tx : stm_tx) (g : Global) (addr value mask : Nat) :
    WriteResult :=
  let lock := LOCK_IDX addr
  match g.locks lock with
  | .ownedSelf idx =>
    if idx < tx.w_set.length then
      if mask = 0 then .ok tx g idx
      else
        match bucket_find tx.w_set addr tx.w_set.length idx with
        | .found i =>
          let prev := tx.w_set.getD i default
          let pval := if mask ≠ WORD_FULL ∧ prev.mask = 0 then g.mem addr else prev.value
          let value' :=
            if mask ≠ WORD_FULL then (pval &&& (WORD_FULL ^^^ mask)) ||| (value &&& mask)
            else value
          .ok { tx with w_set := tx.w_set.set i { prev with value := value', mask := prev.mask ||| mask } } g i
        | .tail i =>
          let version := (tx.w_set.getD i default).version
          if tx.w_set.length = tx.w_set_size then
            let r := stm_rollback tx g STM_ABORT_EXTEND_WS
            .abort STM_ABORT_EXTEND_WS r.1 r.2
          else do_write tx g addr value mask version lock (some i)
        | .bad => .stuck
    else
      let r := stm_rollback tx g STM_ABORT_WW_CONFLICT
      .abort STM_ABORT_WW_CONFLICT r.1 r.2
  | .ownedOther =>
    let r := stm_rollback tx g STM_ABORT_WW_CONFLICT
    .abort STM_ABORT_WW_CONFLICT r.1 r.2
  | .free l =>
    let version := l
    if tx.end_ < version ∧ (stm_has_read tx lock).isSome then
      let r := stm_rollback tx g STM_ABORT_VAL_WRITE
      .abort STM_ABORT_VAL_WRITE r.1 r.2
    else if tx.w_set.length = tx.w_set_size then
      let r := stm_rollback tx g STM_ABORT_EXTEND_WS
      .abort STM_ABORT_EXTEND_WS r.1 r.2
    else
      let g' := { g with locks := updFn g.locks lock (.ownedSelf tx.w_set.length) }
      do_write tx g' addr value mask version lock none

/-! ### stm_wbetl_commit (stm_wbetl.h lines 436-497) -/

/-- The publication loop of `stm_wbetl_commit` (lines 479-493): for each
write entry in insertion order, store its value at its address when the
mask is nonzero, and when `next` is null (the tail of its per-lock bucket)
release the lock with the new timestamp `t`. -/
def wbetl_commit_publish (t : Nat) (ws : List w_entry) (g : Global) : Global :=
  ws.foldl
    (fun g w =>
      let g1 := if w.mask ≠ 0 then { g with mem := updFn g.mem w.addr w.value } else g
      match w.next with
      | none => { g1 with locks := updFn g1.locks w.lock (.free t) }
      | some _ => g1)
    g

/-- Result of `stm_wbetl_commit`: success (returns 1), or a rollback ran
inside it (it returns 0 when control comes back). -/
inductive WbetlCommitResult where
  | ok (tx : stm_tx) (g : Global)
  | rolledBack (reason : Nat) (out : RollbackOutcome) (g : Global)

/-- Back-end commit: obtain the commit timestamp
`t = FETCH_INC_CLOCK + 1`, validate the read set only when some other
transaction committed since start (`tx->start != t - 1`), roll back with
`VALIDATE` when that validation fails, and otherwise publish the write set
and release the locks at timestamp `t`. -/
def stm_wbetl_commit (tx : stm_tx) (g : Global) : WbetlCommitResult :=
  if tx.start ≠ (g.clock + 1) - 1 ∧
      ¬stm_wbetl_validate tx ({ g with clock := g.clock + 1 } : Global).locks then
    .rolledBack STM_ABORT_VALIDATE
      (stm_rollback tx { g with clock := g.clock + 1 } STM_ABORT_VALIDATE).1
      (stm_rollback tx { g with clock := g.clock + 1 } STM_ABORT_VALIDATE).2
  else
    .ok tx (wbetl_commit_publish (g.clock + 1) tx.w_set { g with clock := g.clock + 1 })

/-! ### int_stm_commit (stm_internal.h lines 829-872) -/

/-- Result of `int_stm_commit`.  Note the C function ignores
`stm_wbetl_commit`'s return value: when a rollback inside it returns
normally (the no-retry case) the status is still set to `TX_COMMITTED`
and 1 is returned, which `committed` reflects. -/
inductive CommitResult where
  | nested (tx : stm_tx) (g : Global)
  | committed (tx : stm_tx) (g : Global)
  | aborted (reason : Nat) (out : RollbackOutcome) (g : Global)

/-- Front-end commit: decrement the nesting level and return at once when
still nested; commit immediately when the write set is empty; otherwise
run the back-end commit and set the status to `TX_COMMITTED` whenever
control returns here. -/
def int_stm_commit (tx : stm_tx) (g : Global) : CommitResult :=
  if 0 < tx.nesting - 1 then .nested { tx with nesting := tx.nesting - 1 } g
  else if tx.w_set.length = 0 then
    .committed { tx with nesting := tx.nesting - 1, status := TX_COMMITTED } g
  else
    match stm_wbetl_commit { tx with nesting := tx.nesting - 1 } g with
    | .ok tx' g' => .committed { tx' with status := TX_COMMITTED } g'
    | .rolledBack reason (.retry r tx') g' => .aborted reason (.retry r tx') g'
    | .rolledBack _ (.noRetry tx') g' =>
      .committed { tx' with status := TX_COMMITTED } g'

/-! ### General lemmas -/

theorem testBit_one_eq (i : Nat) : Nat.testBit 1 i = decide (i = 0) := by
  cases i with
  | zero => decide
  | succ n => simp [Nat.testBit_add_one]

theorem version_max_lt : VERSION_MAX < 2 ^ 60 := by decide

/-- Specification-side predicate for snapshot extension (spec §4.6): every
read entry's lock is either owned with its pointer inside our write-set
array, or free at exactly the recorded version. -/
def extend_spec_ok (tx : stm_tx) (locks : Nat → LockWord) : Prop :=
  ∀ r ∈ tx.r_set,
    (∃ idx, locks r.lock = .ownedSelf idx ∧ idx < tx.w_set.length) ∨
    locks r.lock = .free r.version

theorem validate_eq_true_iff (tx : stm_tx) (locks : Nat → LockWord) :
    stm_wbetl_validate tx locks = true ↔ extend_spec_ok tx locks := by
  unfold stm_wbetl_validate extend_spec_ok
  rw [List.all_eq_true]
  constructor
  · intro h r hr
    have hp := h r hr
    cases hl : locks r.lock with
    | free v =>
      right
      rw [hl] at hp
      simp only [beq_iff_eq] at hp
      rw [hp]
    | ownedSelf idx =>
      left
      rw [hl] at hp
      exact ⟨idx, rfl, by simpa using hp⟩
    | ownedOther => rw [hl] at hp; simp at hp
  · intro h r hr
    rcases h r hr with ⟨idx, hl, hlt⟩ | hl
    · rw [hl]; simpa using hlt
    · rw [hl]; simp

theorem rollback_foldl_frame (ws : List w_entry) (locks : Nat → LockWord) (L : Nat)
    (h : ∀ w ∈ ws, ¬(w.next = none ∧ w.lock = L)) :
    ws.foldl
      (fun lks w =>
        match w.next with
        | none => updFn lks w.lock (.free w.version)
        | some _ => lks)
      locks L = locks L := by
  induction ws generalizing locks with
  | nil => rfl
  | cons w rest ih =>
    simp only [List.foldl_cons]
    have h1 := h w (List.mem_cons_self w rest)
    have hrest : ∀ w' ∈ rest, ¬(w'.next = none ∧ w'.lock = L) :=
      fun w' hw' => h w' (List.mem_cons_of_mem w hw')
    cases hn : w.next with
    | none =>
      have hL : L ≠ w.lock := fun hh => h1 ⟨hn, hh.symm⟩
      rw [ih _ hrest]
      simp [updFn, hL]
    | some j => exact ih _ hrest

theorem rollback_foldl_sets (ws : List w_entry) (L V : Nat)
    (hall : ∀ w ∈ ws, w.next = none → w.lock = L → w.version = V)
    (hex : ∃ w ∈ ws, w.next = none ∧ w.lock = L) :
    ∀ locks : Nat → LockWord,
      ws.foldl
        (fun lks w =>
          match w.next with
          | none => updFn lks w.lock (.free w.version)
          | some _ => lks)
        locks L = .free V := by
  induction ws with
  | nil => rcases hex with ⟨w, hw, _⟩; cases hw
  | cons w rest ih =>
    intro locks
    simp only [List.foldl_cons]
    by_cases hrest : ∃ w' ∈ rest, w'.next = none ∧ w'.lock = L
    · exact ih (fun w' h1 => hall w' (List.mem_cons_of_mem w h1)) hrest _
    · have hframe := rollback_foldl_frame rest
        (match w.next with
          | none => updFn locks w.lock (.free w.version)
          | some _ => locks) L
        (fun w' hw' hc => hrest ⟨w', hw', hc⟩)
      rw [hframe]
      rcases hex with ⟨w0, hw0, hn0, hl0⟩
      rcases List.mem_cons.mp hw0 with rfl | h0
      · have hv := hall w0 (List.mem_cons_self w0 rest) hn0 hl0
        rw [hn0, hl0, hv]
        simp [updFn]
      · exact absurd ⟨w0, h0, hn0, hl0⟩ hrest

/-- The lock-drop loop of `stm_wbetl_rollback` leaves every lock that no
bucket tail of the write set covers untouched. -/
theorem stm_wbetl_rollback_frame (tx : stm_tx) (locks : Nat → LockWord) (L : Nat)
    (h : ∀ w ∈ tx.w_set, ¬(w.next = none ∧ w.lock = L)) :
    stm_wbetl_rollback tx locks L = locks L :=
  rollback_foldl_frame tx.w_set locks L h

/-- Rollback never touches application memory. -/
theorem stm_rollback_mem (tx : stm_tx) (g : Global) (reason : Nat) :
    (stm_rollback tx g reason).2.mem = g.mem := by
  unfold stm_rollback int_stm_prepare
  split
  · rfl
  · split <;> rfl


/-- Below the clock cap, the shared state after `stm_rollback` is the
input state with exactly the owned locks dropped. -/
theorem stm_rollback_global (tx : stm_tx) (g : Global) (reason : Nat)
    (hclk : g.clock < VERSION_MAX) :
    (stm_rollback tx g reason).2 =
      { g with locks := stm_wbetl_rollback tx g.locks } := by
  have hn : ¬VERSION_MAX ≤ g.clock := Nat.not_le.mpr hclk
  unfold stm_rollback int_stm_prepare
  split
  · rfl
  · simp only [hn, if_false]

/-! ### Claim theorems -/

/-- C9: the lock-word encoding round-trips.  For every representable
version `t`, the free encoding `LOCK_SET_TIMESTAMP t` has the owned bit
clear and decodes back to `t`; for every 16-byte-aligned machine-word
address `a`, the owned encoding `LOCK_SET_ADDR_WRITE a` has the owned bit
set and masking the owned bit off (`LOCK_GET_ADDR`) recovers exactly `a`. -/
theorem lock_word_encoding_roundtrip :
    (∀ t : Nat, t ≤ VERSION_MAX →
      LOCK_GET_OWNED (LOCK_SET_TIMESTAMP t) = 0 ∧
      LOCK_GET_TIMESTAMP (LOCK_SET_TIMESTAMP t) = t) ∧
    (∀ a : Nat, a < WORD_SIZE → a % 16 = 0 →
      LOCK_GET_OWNED (LOCK_SET_ADDR_WRITE a) = 1 ∧
      LOCK_GET_ADDR (LOCK_SET_ADDR_WRITE a) = a) := by
  constructor
  · intro t ht
    have hlt : t < 2 ^ 60 := Nat.lt_of_le_of_lt ht version_max_lt
    have hmul : t <<< LOCK_BITS = t * 16 := by
      rw [Nat.shiftLeft_eq]
      norm_num [LOCK_BITS, OWNED_BITS, INCARNATION_BITS]
    have hlt64 : t * 16 < WORD_SIZE := by
      have h2 : WORD_SIZE = 1152921504606846976 * 16 := by norm_num [WORD_SIZE, WORD_BITS]
      have h3 : (2 : Nat) ^ 60 = 1152921504606846976 := by norm_num
      rw [h3] at hlt
      omega
    have hmod : LOCK_SET_TIMESTAMP t = t * 16 := by
      unfold LOCK_SET_TIMESTAMP
      rw [hmul, Nat.mod_eq_of_lt hlt64]
    constructor
    · unfold LOCK_GET_OWNED OWNED_MASK WRITE_MASK
      rw [hmod, Nat.and_one_is_mod]
      omega
    · unfold LOCK_GET_TIMESTAMP
      rw [hmod, Nat.shiftRight_eq_div_pow]
      norm_num [LOCK_BITS, OWNED_BITS, INCARNATION_BITS]
  · intro a ha h16
    have ha0 : a % 2 = 0 := by omega
    constructor
    · unfold LOCK_GET_OWNED LOCK_SET_ADDR_WRITE OWNED_MASK WRITE_MASK
      rw [Nat.and_one_is_mod, Nat.or_mod_two_eq_one]
      exact Or.inr rfl
    · apply Nat.eq_of_testBit_eq
      intro i
      simp only [LOCK_GET_ADDR, LOCK_SET_ADDR_WRITE, WORD_FULL, OWNED_MASK, WRITE_MASK,
        WORD_BITS, Nat.testBit_and, Nat.testBit_or, Nat.testBit_xor,
        Nat.testBit_two_pow_sub_one, testBit_one_eq]
      rcases Nat.eq_zero_or_pos i with hi | hi
      · subst hi
        have : a.testBit 0 = false := by
          simp only [Nat.testBit_zero, decide_eq_false_iff_not]
          omega
        simp [this]
      · by_cases hi64 : i < 64
        · simp [Nat.ne_of_gt hi, hi64]
        · have hbit : a.testBit i = false := by
            apply Nat.testBit_lt_two_pow
            calc a < 2 ^ 64 := by simpa [WORD_SIZE, WORD_BITS] using ha
            _ ≤ 2 ^ i := Nat.pow_le_pow_right (by norm_num) (by omega)
          simp [Nat.ne_of_gt hi, hi64, hbit]

theorem lock_word_encoding_roundtrip_witness :
    LOCK_GET_OWNED (LOCK_SET_TIMESTAMP 7) = 0 ∧
    LOCK_GET_TIMESTAMP (LOCK_SET_TIMESTAMP 7) = 7 ∧
    LOCK_GET_OWNED (LOCK_SET_ADDR_WRITE 32) = 1 ∧
    LOCK_GET_ADDR (LOCK_SET_ADDR_WRITE 32) = 32 := by
  have h1 := lock_word_encoding_roundtrip.1 7 (by decide)
  have h2 := lock_word_encoding_roundtrip.2 32 (by decide) (by decide)
  exact ⟨h1.1, h1.2, h2.1, h2.2⟩

/-- C2: snapshot extension succeeds exactly when every read-set entry has
its lock owned with the pointer inside our write-set array or free at the
recorded version; on success `end` becomes the clock value read at the
start of the extension and true is returned, on failure `end` is unchanged
and false is returned. -/
theorem extend_success_iff (tx : stm_tx) (g : Global) :
    (stm_wbetl_extend tx g = (true, { tx with end_ := g.clock }) ↔
      extend_spec_ok tx g.locks) ∧
    (¬extend_spec_ok tx g.locks → stm_wbetl_extend tx g = (false, tx)) := by
  constructor
  · constructor
    · intro h
      rw [← validate_eq_true_iff]
      by_contra hv
      rw [Bool.not_eq_true] at hv
      unfold stm_wbetl_extend at h
      rw [hv] at h
      simp at h
    · intro h
      have hv : stm_wbetl_validate tx g.locks = true :=
        (validate_eq_true_iff tx g.locks).mpr h
      unfold stm_wbetl_extend
      rw [hv]
      simp
  · intro h
    have hv : stm_wbetl_validate tx g.locks = false := by
      rw [← Bool.not_eq_true, validate_eq_true_iff]
      exact h
    unfold stm_wbetl_extend
    rw [hv]
    simp

/-- Concrete states used by the witnesses. -/
def txW2 : stm_tx :=
  { status := TX_ACTIVE, start := 0, end_ := 0,
    r_set := [⟨3, 0⟩], w_set := [], w_set_size := 4,
    nesting := 1, read_only := false, no_retry := false, has_writes := 0 }

def gW2 : Global :=
  { mem := fun _ => 0, locks := fun _ => .free 3, clock := 9 }

theorem extend_success_iff_witness :
    stm_wbetl_extend txW2 gW2 = (true, { txW2 with end_ := gW2.clock }) := by
  apply (extend_success_iff txW2 gW2).1.mpr
  intro r hr
  right
  have : r = (⟨3, 0⟩ : r_entry) := by
    simpa [txW2] using hr
  subst this
  rfl

/-- C8: a rollback whose attributes carry `no_retry` or whose reason
carries the `NO_RETRY` bit does not invoke the retry continuation but
returns normally with the owned locks dropped, status `TX_ABORTED`
(observable through `int_stm_aborted`), nesting 0, and the descriptor not
re-prepared (start, end and both sets are left as they were). -/
theorem rollback_no_retry_returns (tx : stm_tx) (g : Global) (reason : Nat)
    (h : tx.no_retry = true ∨ reason &&& STM_ABORT_NO_RETRY = STM_ABORT_NO_RETRY) :
    ∃ tx', stm_rollback tx g reason =
        (.noRetry tx', { g with locks := stm_wbetl_rollback tx g.locks }) ∧
      tx'.nesting = 0 ∧ tx'.status = TX_ABORTED ∧ int_stm_aborted tx' = true ∧
      tx'.start = tx.start ∧ tx'.end_ = tx.end_ ∧
      tx'.r_set = tx.r_set ∧ tx'.w_set = tx.w_set := by
  have hc : (tx.no_retry || ((reason &&& STM_ABORT_NO_RETRY) == STM_ABORT_NO_RETRY)) = true := by
    rcases h with h | h <;> simp [h]
  refine ⟨{ tx with
      status := TX_ABORTED,
      w_set_size := if reason = STM_ABORT_EXTEND_WS then tx.w_set_size * 2 else tx.w_set_size,
      nesting := 0 }, ?_, rfl, rfl, by simp [int_stm_aborted, TX_ABORTED], rfl, rfl, rfl, rfl⟩
  unfold stm_rollback
  simp [hc]

def txW8 : stm_tx :=
  { status := TX_ACTIVE, start := 2, end_ := 2,
    r_set := [], w_set := [⟨8, 5, 1, 2, 0, none⟩], w_set_size := 4,
    nesting := 1, read_only := false, no_retry := true, has_writes := 1 }

def gW8 : Global :=
  { mem := fun _ => 0, locks := fun L => if L = 0 then .ownedSelf 0 else .free 0,
    clock := 2 }

theorem rollback_no_retry_returns_witness :
    ∃ tx', stm_rollback txW8 gW8 STM_ABORT_WW_CONFLICT =
        (.noRetry tx', { gW8 with locks := stm_wbetl_rollback txW8 gW8.locks }) ∧
      tx'.nesting = 0 ∧ tx'.status = TX_ABORTED ∧ int_stm_aborted tx' = true ∧
      tx'.start = txW8.start ∧ tx'.end_ = txW8.end_ ∧
      tx'.r_set = txW8.r_set ∧ tx'.w_set = txW8.w_set :=
  rollback_no_retry_returns txW8 gW8 STM_ABORT_WW_CONFLICT (Or.inl rfl)

/-- C10: a store with mask 0 on a lock this transaction owns returns at
once with the entry the lock word points to, without walking the bucket,
appending an entry, or changing any state — even when the bucket holds no
entry for the address. -/
theorem write_zero_mask_owned_noop (tx : stm_tx) (g : Global) (addr value idx : Nat)
    (hown : g.locks (LOCK_IDX addr) = .ownedSelf idx)
    (hidx : idx < tx.w_set.length) :
    stm_wbetl_write tx g addr value 0 = .ok tx g idx := by
  simp [stm_wbetl_write, hown, hidx]

def txW10 : stm_tx :=
  { status := TX_ACTIVE, start := 0, end_ := 0,
    r_set := [], w_set := [⟨8, 5, WORD_FULL, 0, 0, none⟩], w_set_size := 4,
    nesting := 1, read_only := false, no_retry := false, has_writes := 1 }

def gW10 : Global :=
  { mem := fun _ => 0, locks := fun L => if L = 0 then .ownedSelf 0 else .free 0,
    clock := 0 }

/-- The bucket of `txW10` holds no entry for address 0 (only one for
address 8, the other word of the stripe), yet the zero-mask store still
returns the pointed-to entry and changes nothing. -/
theorem write_zero_mask_owned_noop_witness :
    stm_wbetl_write txW10 gW10 0 7 0 = .ok txW10 gW10 0 :=
  write_zero_mask_owned_noop txW10 gW10 0 7 0 rfl (by decide)

/-- C7: a store that finds its lock free at a version above `tx->end`
rolls back with reason `VAL_WRITE` when the lock appears in the read set,
acquiring no lock (below the clock cap the lock still holds its free
version afterwards when no write-set entry covers it); when the lock does
not appear in the read set the store goes on to acquire the lock despite
the stale version. -/
theorem write_free_stale_version (tx : stm_tx) (g : Global) (addr value mask ver : Nat)
    (hfree : g.locks (LOCK_IDX addr) = .free ver)
    (hver : tx.end_ < ver)
    (hclk : g.clock < VERSION_MAX) :
    ((stm_has_read tx (LOCK_IDX addr)).isSome = true →
      ∃ out g', stm_wbetl_write tx g addr value mask =
          .abort STM_ABORT_VAL_WRITE out g' ∧
        ((∀ w ∈ tx.w_set, w.lock ≠ LOCK_IDX addr) →
          g'.locks (LOCK_IDX addr) = .free ver)) ∧
    ((stm_has_read tx (LOCK_IDX addr)).isSome = false →
      tx.w_set.length ≠ tx.w_set_size →
      ∃ tx' g', stm_wbetl_write tx g addr value mask = .ok tx' g' tx.w_set.length ∧
        g'.locks (LOCK_IDX addr) = .ownedSelf tx.w_set.length) := by
  constructor
  · intro hread
    refine ⟨(stm_rollback tx g STM_ABORT_VAL_WRITE).1,
      (stm_rollback tx g STM_ABORT_VAL_WRITE).2, ?_, ?_⟩
    · simp [stm_wbetl_write, hfree, hver, hread]
    · intro hnol
      rw [stm_rollback_global tx g STM_ABORT_VAL_WRITE hclk]
      have := stm_wbetl_rollback_frame tx g.locks (LOCK_IDX addr)
        (fun w hw hc => hnol w hw hc.2)
      simpa [this] using hfree
  · intro hread hcap
    have heval : stm_wbetl_write tx g addr value mask =
        do_write tx
          { g with locks := updFn g.locks (LOCK_IDX addr) (.ownedSelf tx.w_set.length) }
          addr value mask ver (LOCK_IDX addr) none := by
      simp [stm_wbetl_write, hfree, hread, hcap]
    refine ⟨{ tx with
        w_set := tx.w_set ++ [⟨addr,
          if mask = 0 then 0
          else if mask ≠ WORD_FULL then
            (g.mem addr &&& (WORD_FULL ^^^ mask)) ||| (value &&& mask)
          else value, mask, ver, LOCK_IDX addr, none⟩],
        has_writes := tx.has_writes + 1 },
      { g with locks := updFn g.locks (LOCK_IDX addr) (.ownedSelf tx.w_set.length) },
      ?_, ?_⟩
    · rw [heval]
      rfl
    · simp [updFn]

def txW7 : stm_tx :=
  { status := TX_ACTIVE, start := 0, end_ := 0,
    r_set := [⟨0, 0⟩], w_set := [], w_set_size := 4,
    nesting := 1, read_only := false, no_retry := false, has_writes := 0 }

def gW7 : Global :=
  { mem := fun _ => 0, locks := fun _ => .free 5, clock := 5 }

theorem write_free_stale_version_witness :
    (∃ out g', stm_wbetl_write txW7 gW7 0 9 WORD_FULL =
        .abort STM_ABORT_VAL_WRITE out g' ∧
      ((∀ w ∈ txW7.w_set, w.lock ≠ LOCK_IDX 0) →
        g'.locks (LOCK_IDX 0) = .free 5)) ∧
    (∃ tx' g', stm_wbetl_write { txW7 with r_set := [] } gW7 0 9 WORD_FULL =
        .ok tx' g' 0 ∧
      g'.locks (LOCK_IDX 0) = .ownedSelf 0) := by
  constructor
  · exact (write_free_stale_version txW7 gW7 0 9 WORD_FULL 5 rfl (by decide)
      (by decide)).1 rfl
  · exact (write_free_stale_version { txW7 with r_set := [] } gW7 0 9 WORD_FULL 5 rfl
      (by decide) (by decide)).2 rfl (by decide)

/-- C6: a nonzero-mask store on a lock we own whose bucket holds an entry
for the address merges in place: the entry's value becomes
`(old & ~mask) | (value & mask)` where `old` is re-read from memory when
the entry's previous mask was 0, the mask is ORed into the entry's mask,
the existing entry (index `i`) is returned, and the number of write-set
entries does not change. -/
theorem write_owned_merge (tx : stm_tx) (g : Global) (addr value mask idx i : Nat)
    (hown : g.locks (LOCK_IDX addr) = .ownedSelf idx)
    (hidx : idx < tx.w_set.length)
    (hm : mask ≠ 0)
    (hfind : bucket_find tx.w_set addr tx.w_set.length idx = .found i)
    (hv : value < WORD_SIZE) :
    stm_wbetl_write tx g addr value mask =
      .ok
        { tx with
          w_set := tx.w_set.set i
            { tx.w_set.getD i default with
              value :=
                ((if (tx.w_set.getD i default).mask = 0 then g.mem addr
                  else (tx.w_set.getD i default).value) &&&
                  (WORD_FULL ^^^ mask)) ||| (value &&& mask),
              mask := (tx.w_set.getD i default).mask ||| mask } }
        g i ∧
    (tx.w_set.set i
      { tx.w_set.getD i default with
        value :=
          ((if (tx.w_set.getD i default).mask = 0 then g.mem addr
            else (tx.w_set.getD i default).value) &&&
            (WORD_FULL ^^^ mask)) ||| (value &&& mask),
        mask := (tx.w_set.getD i default).mask ||| mask }).length =
      tx.w_set.length := by
  constructor
  · by_cases hf : mask = WORD_FULL
    · subst hf
      have hval : value &&& WORD_FULL = value := by
        have : value &&& (2 ^ WORD_BITS - 1) = value % 2 ^ WORD_BITS :=
          Nat.and_pow_two_sub_one_eq_mod value WORD_BITS
        rw [WORD_FULL, this, Nat.mod_eq_of_lt]
        simpa [WORD_SIZE] using hv
      simp [stm_wbetl_write, hown, hidx, hm, hfind, Nat.xor_self, hval]
    · simp [stm_wbetl_write, hown, hidx, hm, hfind, hf]
  · exact List.length_set tx.w_set i _

def txW6 : stm_tx :=
  { status := TX_ACTIVE, start := 0, end_ := 0,
    r_set := [], w_set := [⟨0, 5, 240, 0, 0, none⟩], w_set_size := 4,
    nesting := 1, read_only := false, no_retry := false, has_writes := 1 }

def gW6 : Global :=
  { mem := fun _ => 0, locks := fun L => if L = 0 then .ownedSelf 0 else .free 0,
    clock := 0 }

/-- C5: after rollback every owned lock is reset to its captured
pre-transaction version, by storing `LOCK_SET_TIMESTAMP(w->version)` at
exactly the write entries whose `next` is null: locks without a bucket
tail are untouched, each bucket tail's lock is set to the free encoding of
its captured version (the hypothesis that tails of one lock share their
captured version holds for any bucket built by `stm_wbetl_write`), and at
the bit level the stored word is identical to the captured free word —
no bit outside the version field changes — since captured words carry a
zero incarnation here. -/
theorem rollback_restores_versions (tx : stm_tx) (g : Global)
    (hu : ∀ w1 ∈ tx.w_set, ∀ w2 ∈ tx.w_set, w1.next = none → w2.next = none →
      w1.lock = w2.lock → w1.version = w2.version) :
    (∀ L, (∀ w ∈ tx.w_set, ¬(w.next = none ∧ w.lock = L)) →
      stm_wbetl_rollback tx g.locks L = g.locks L) ∧
    (∀ w ∈ tx.w_set, w.next = none →
      stm_wbetl_rollback tx g.locks w.lock = .free w.version) ∧
    (∀ l, LOCK_GET_OWNED l = 0 → LOCK_GET_INCARNATION l = 0 → l < WORD_SIZE →
      LOCK_SET_TIMESTAMP (LOCK_GET_TIMESTAMP l) = l) := by
  refine ⟨fun L h => stm_wbetl_rollback_frame tx g.locks L h, ?_, ?_⟩
  · intro w hw hn
    exact rollback_foldl_sets tx.w_set w.lock w.version
      (fun w' hw' hn' hl' => hu w' hw' w hw hn' hn hl')
      ⟨w, hw, hn, rfl⟩ g.locks
  · intro l h0 hinc hlt
    have h2 : l % 2 = 0 := by
      unfold LOCK_GET_OWNED OWNED_MASK WRITE_MASK at h0
      rwa [Nat.and_one_is_mod] at h0
    have h14 : l &&& 14 = 0 := by
      have heven : (l &&& 14) % 2 = 0 := by
        have h1 : ¬((l &&& 14) % 2 = 1) := by
          rw [Nat.and_mod_two_eq_one]
          rintro ⟨-, h⟩
          omega
        omega
      have hmask : INCARNATION_MASK = 14 := by decide
      unfold LOCK_GET_INCARNATION at hinc
      rw [hmask, Nat.shiftRight_eq_div_pow] at hinc
      have hdiv : (l &&& 14) / 2 = 0 := by
        simpa [OWNED_BITS] using hinc
      omega
    have hbit1 : l.testBit 1 = false := by
      have h := congrArg (fun x => Nat.testBit x 1) h14
      simp only [Nat.testBit_and, Nat.zero_testBit] at h
      have ht : Nat.testBit 14 1 = true := by decide
      rw [ht, Bool.and_true] at h
      exact h
    have hbit2 : l.testBit 2 = false := by
      have h := congrArg (fun x => Nat.testBit x 2) h14
      simp only [Nat.testBit_and, Nat.zero_testBit] at h
      have ht : Nat.testBit 14 2 = true := by decide
      rw [ht, Bool.and_true] at h
      exact h
    have hbit3 : l.testBit 3 = false := by
      have h := congrArg (fun x => Nat.testBit x 3) h14
      simp only [Nat.testBit_and, Nat.zero_testBit] at h
      have ht : Nat.testBit 14 3 = true := by decide
      rw [ht, Bool.and_true] at h
      exact h
    have h15 : l &&& 15 = 0 := by
      apply Nat.eq_of_testBit_eq
      intro i
      simp only [Nat.testBit_and, Nat.zero_testBit]
      have hb15 : Nat.testBit 15 i = decide (i < 4) := by
        rw [show (15 : Nat) = 2 ^ 4 - 1 by norm_num, Nat.testBit_two_pow_sub_one]
      rw [hb15]
      rcases i with _ | _ | _ | _ | i
      · have hb0 : l.testBit 0 = false := by
          simp only [Nat.testBit_zero, decide_eq_false_iff_not]
          omega
        simp [hb0]
      · simp [hbit1]
      · simp [hbit2]
      · simp [hbit3]
      · have hn4 : ¬(i + 1 + 1 + 1 + 1 < 4) := by omega
        simp [hn4]
    have hmod := Nat.and_pow_two_sub_one_eq_mod l 4
    norm_num at hmod
    rw [h15] at hmod
    unfold LOCK_SET_TIMESTAMP LOCK_GET_TIMESTAMP LOCK_BITS OWNED_BITS INCARNATION_BITS
    rw [Nat.shiftRight_eq_div_pow, Nat.shiftLeft_eq]
    norm_num
    have hdvd : 16 ∣ l := Nat.dvd_of_mod_eq_zero (by omega)
    rw [Nat.div_mul_cancel hdvd, Nat.mod_eq_of_lt hlt]

theorem publish_mem_eq (t : Nat) (ws : List w_entry) :
    ∀ (g : Global) (a : Nat),
      (wbetl_commit_publish t ws g).mem a =
        match ws.reverse.find? (fun w => w.addr == a && w.mask != 0) with
        | some w => w.value
        | none => g.mem a := by
  induction ws with
  | nil => intro g a; rfl
  | cons w rest ih =>
    intro g a
    rw [show wbetl_commit_publish t (w :: rest) g =
      wbetl_commit_publish t rest
        (match w.next with
          | none =>
            { (if w.mask ≠ 0 then { g with mem := updFn g.mem w.addr w.value } else g) with
              locks := updFn
                (if w.mask ≠ 0 then { g with mem := updFn g.mem w.addr w.value } else g).locks
                w.lock (.free t) }
          | some _ =>
            if w.mask ≠ 0 then { g with mem := updFn g.mem w.addr w.value } else g) from rfl]
    rw [ih]
    rw [List.reverse_cons, List.find?_append]
    cases hf : rest.reverse.find? (fun w => w.addr == a && w.mask != 0) with
    | some w' => rfl
    | none =>
      simp only [Option.none_or]
      cases hn : w.next with
      | none =>
        cases hw : ((w.addr == a && w.mask != 0) : Bool) with
        | true =>
          simp only [List.find?_cons_of_pos _ hw]
          have hm : w.mask ≠ 0 := by
            simp only [Bool.and_eq_true, bne_iff_ne, beq_iff_eq] at hw
            exact hw.2
          have ha : w.addr = a := by
            simp only [Bool.and_eq_true, beq_iff_eq] at hw
            exact hw.1
          simp [hm, updFn, ha]
        | false =>
          rw [List.find?_singleton]
          simp only [hw, Bool.false_eq_true, if_false]
          by_cases hm : w.mask ≠ 0
          · have ha : w.addr ≠ a := by
              intro hh
              rw [hh] at hw
              simp [hm] at hw
            simp [hm, updFn, Ne.symm ha]
          · simp [hm]
      | some j =>
        cases hw : ((w.addr == a && w.mask != 0) : Bool) with
        | true =>
          simp only [List.find?_cons_of_pos _ hw]
          have hm : w.mask ≠ 0 := by
            simp only [Bool.and_eq_true, bne_iff_ne, beq_iff_eq] at hw
            exact hw.2
          have ha : w.addr = a := by
            simp only [Bool.and_eq_true, beq_iff_eq] at hw
            exact hw.1
          simp [hm, updFn, ha]
        | false =>
          rw [List.find?_singleton]
          simp only [hw, Bool.false_eq_true, if_false]
          by_cases hm : w.mask ≠ 0
          · have ha : w.addr ≠ a := by
              intro hh
              rw [hh] at hw
              simp [hm] at hw
            simp [hm, updFn, Ne.symm ha]
          · simp [hm]

theorem publish_locks_eq (t : Nat) (ws : List w_entry) :
    ∀ (g : Global) (L : Nat),
      (wbetl_commit_publish t ws g).locks L =
        if ws.any (fun w => w.lock == L && w.next.isNone) then .free t
        else g.locks L := by
  induction ws with
  | nil => intro g L; simp [wbetl_commit_publish]
  | cons w rest ih =>
    intro g L
    rw [show wbetl_commit_publish t (w :: rest) g =
      wbetl_commit_publish t rest
        (match w.next with
          | none =>
            { (if w.mask ≠ 0 then { g with mem := updFn g.mem w.addr w.value } else g) with
              locks := updFn
                (if w.mask ≠ 0 then { g with mem := updFn g.mem w.addr w.value } else g).locks
                w.lock (.free t) }
          | some _ =>
            if w.mask ≠ 0 then { g with mem := updFn g.mem w.addr w.value } else g) from rfl]
    rw [ih, List.any_cons]
    have hml : (if w.mask ≠ 0 then { g with mem := updFn g.mem w.addr w.value } else g).locks
        = g.locks := by
      split <;> rfl
    by_cases hr : rest.any (fun w => w.lock == L && w.next.isNone) = true
    · simp [hr]
    · have hr' : rest.any (fun w => w.lock == L && w.next.isNone) = false :=
        Bool.not_eq_true _ |>.mp hr
      cases hn : w.next with
      | none =>
        by_cases hl : w.lock = L
        · simp [hr', hml, updFn, hl]
        · have hl' : L ≠ w.lock := fun hh => hl hh.symm
          simp [hr', hml, updFn, hl', hl]
          split <;> rfl
      | some j =>
        simp [hr', hml]
        split <;> rfl

theorem countP_tail_unique (L : Nat) (ws : List w_entry)
    (hp : ws.Pairwise (fun w1 w2 =>
      ¬(w1.next = none ∧ w1.lock = L ∧ w2.next = none ∧ w2.lock = L)))
    (hex : ∃ w ∈ ws, w.next = none ∧ w.lock = L) :
    ws.countP (fun w => w.next.isNone && w.lock == L) = 1 := by
  induction ws with
  | nil => simp at hex
  | cons w rest ih =>
    rw [List.countP_cons]
    rcases List.pairwise_cons.mp hp with ⟨hhead, hrest⟩
    by_cases hw : (w.next.isNone && w.lock == L) = true
    · have hw' : w.next = none ∧ w.lock = L := by
        simpa [Option.isNone_iff_eq_none] using hw
      have hzero : rest.countP (fun w => w.next.isNone && w.lock == L) = 0 := by
        rw [List.countP_eq_zero]
        intro w' hmem hc
        have hc' : w'.next = none ∧ w'.lock = L := by
          simpa [Option.isNone_iff_eq_none] using hc
        exact hhead w' hmem ⟨hw'.1, hw'.2, hc'.1, hc'.2⟩
      simp [hw, hzero]
    · rcases hex with ⟨w0, hw0, h0⟩
      rcases List.mem_cons.mp hw0 with rfl | h0'
      · exact absurd (by simp [h0.1, h0.2]) hw
      · have hr := ih hrest ⟨w0, h0', h0⟩
        simp [hw, hr]

/-- C4: commit publication processes the write entries in insertion order:
memory at an address ends at the value of the last entry that writes it
with a nonzero mask (an entry stores to memory exactly when its mask is
nonzero) and is untouched when no such entry exists; a lock word is
rewritten — to the free encoding of the commit timestamp `t` — exactly
when some entry with null `next` (a bucket tail) covers it; and with
bucket tails unique per lock, as the write-set construction keeps them,
each owned lock has exactly one releasing entry. -/
theorem commit_publish_spec (t : Nat) (ws : List w_entry) (g : Global) :
    (∀ a, (wbetl_commit_publish t ws g).mem a =
      match ws.reverse.find? (fun w => w.addr == a && w.mask != 0) with
      | some w => w.value
      | none => g.mem a) ∧
    (∀ L, (wbetl_commit_publish t ws g).locks L =
      if ws.any (fun w => w.lock == L && w.next.isNone) then .free t
      else g.locks L) ∧
    (∀ L, ws.Pairwise (fun w1 w2 =>
        ¬(w1.next = none ∧ w1.lock = L ∧ w2.next = none ∧ w2.lock = L)) →
      (∃ w ∈ ws, w.next = none ∧ w.lock = L) →
      ws.countP (fun w => w.next.isNone && w.lock == L) = 1) :=
  ⟨publish_mem_eq t ws g, publish_locks_eq t ws g,
    fun L hp hex => countP_tail_unique L ws hp hex⟩

def wsW4 : List w_entry := [⟨0, 1, 1, 0, 0, some 1⟩, ⟨8, 2, 1, 0, 0, none⟩]

def gW4 : Global :=
  { mem := fun _ => 0, locks := fun L => if L = 0 then .ownedSelf 0 else .free 0,
    clock := 0 }

/-- A two-entry bucket publishing at commit time 1: both values land in
memory, the stripe's lock is released once to version 1, other locks and
addresses are untouched. -/
theorem commit_publish_spec_witness :
    (wbetl_commit_publish 1 wsW4 gW4).mem 0 = 1 ∧
    (wbetl_commit_publish 1 wsW4 gW4).mem 8 = 2 ∧
    (wbetl_commit_publish 1 wsW4 gW4).mem 32 = 0 ∧
    (wbetl_commit_publish 1 wsW4 gW4).locks 0 = .free 1 ∧
    (wbetl_commit_publish 1 wsW4 gW4).locks 1 = .free 0 ∧
    wsW4.countP (fun w => w.next.isNone && w.lock == 0) = 1 := by
  have h := commit_publish_spec 1 wsW4 gW4
  refine ⟨?_, ?_, ?_, ?_, ?_, h.2.2 0 (by decide) (by decide)⟩
  · rw [h.1 0]; rfl
  · rw [h.1 8]; rfl
  · rw [h.1 32]; rfl
  · rw [h.2.1 0]; rfl
  · rw [h.2.1 1]; rfl

def txW5 : stm_tx :=
  { status := TX_ACTIVE, start := 5, end_ := 5,
    r_set := [],
    w_set := [⟨0, 7, WORD_FULL, 5, 0, some 1⟩, ⟨8, 9, WORD_FULL, 5, 0, none⟩],
    w_set_size := 4, nesting := 1, read_only := false, no_retry := false,
    has_writes := 2 }

def gW5 : Global :=
  { mem := fun _ => 0, locks := fun L => if L = 0 then .ownedSelf 0 else .free 3,
    clock := 6 }

/-- A two-entry bucket on lock 0: rollback restores the captured version 5
at the bucket tail's lock and leaves lock 1 untouched. -/
theorem rollback_restores_versions_witness :
    stm_wbetl_rollback txW5 gW5.locks 0 = .free 5 ∧
    stm_wbetl_rollback txW5 gW5.locks 1 = gW5.locks 1 := by
  have h := rollback_restores_versions txW5 gW5 (by decide)
  exact ⟨h.2.1 ⟨8, 9, WORD_FULL, 5, 0, none⟩ (by decide) rfl, h.1 1 (by decide)⟩

theorem write_owned_merge_witness :
    stm_wbetl_write txW6 gW6 0 171 15 =
      .ok
        { txW6 with
          w_set := txW6.w_set.set 0
            { txW6.w_set.getD 0 default with
              value :=
                ((if (txW6.w_set.getD 0 default).mask = 0 then gW6.mem 0
                  else (txW6.w_set.getD 0 default).value) &&&
                  (WORD_FULL ^^^ 15)) ||| (171 &&& 15),
              mask := (txW6.w_set.getD 0 default).mask ||| 15 } }
        gW6 0 :=
  (write_owned_merge txW6 gW6 0 171 15 0 0 rfl (by decide) (by decide) (by decide)
    (by decide)).1

theorem publish_clock_eq (t : Nat) (ws : List w_entry) :
    ∀ g : Global, (wbetl_commit_publish t ws g).clock = g.clock := by
  induction ws with
  | nil => intro g; rfl
  | cons w rest ih =>
    intro g
    rw [show wbetl_commit_publish t (w :: rest) g =
      wbetl_commit_publish t rest
        (match w.next with
          | none =>
            { (if w.mask ≠ 0 then { g with mem := updFn g.mem w.addr w.value } else g) with
              locks := updFn
                (if w.mask ≠ 0 then { g with mem := updFn g.mem w.addr w.value } else g).locks
                w.lock (.free t) }
          | some _ =>
            if w.mask ≠ 0 then { g with mem := updFn g.mem w.addr w.value } else g) from rfl]
    rw [ih]
    cases w.next <;> by_cases hm : w.mask ≠ 0 <;> simp [hm]

theorem bucket_find_found_addr (ws : List w_entry) (addr : Nat) :
    ∀ fuel idx i, bucket_find ws addr fuel idx = .found i →
      ∃ w, ws[i]? = some w ∧ w.addr = addr := by
  intro fuel
  induction fuel with
  | zero => intro idx i h; simp [bucket_find] at h
  | succ fuel ih =>
    intro idx i h
    simp only [bucket_find] at h
    cases hidx : ws[idx]? with
    | none => rw [hidx] at h; cases h
    | some w =>
      rw [hidx] at h
      simp only [] at h
      by_cases ha : w.addr = addr
      · rw [if_pos ha] at h
        cases h
        exact ⟨w, hidx, ha⟩
      · rw [if_neg ha] at h
        cases hn : w.next with
        | none => rw [hn] at h; cases h
        | some j => rw [hn] at h; exact ih j i h

theorem bucket_find_tail_entry (ws : List w_entry) (addr : Nat) :
    ∀ fuel idx p, bucket_find ws addr fuel idx = .tail p →
      ∃ w, ws[p]? = some w ∧ w.addr ≠ addr ∧ w.next = none := by
  intro fuel
  induction fuel with
  | zero => intro idx p h; simp [bucket_find] at h
  | succ fuel ih =>
    intro idx p h
    simp only [bucket_find] at h
    cases hidx : ws[idx]? with
    | none => rw [hidx] at h; cases h
    | some w =>
      rw [hidx] at h
      simp only [] at h
      by_cases ha : w.addr = addr
      · rw [if_pos ha] at h; cases h
      · rw [if_neg ha] at h
        cases hn : w.next with
        | none =>
          rw [hn] at h
          cases h
          exact ⟨w, hidx, ha, hn⟩
        | some j => rw [hn] at h; exact ih j p h

/-- Reading a bucket after the entry matching the address has been merged
in place finds the merged entry first and returns its value. -/
theorem bucket_read_set_found (ws : List w_entry) (mem : Nat → Nat) (addr : Nat)
    (e' : w_entry) (he : e'.addr = addr) (hm : e'.mask ≠ 0) :
    ∀ fuel idx i, bucket_find ws addr fuel idx = .found i →
      bucket_read (ws.set i e') mem addr fuel idx = some e'.value := by
  intro fuel
  induction fuel with
  | zero => intro idx i h; simp [bucket_find] at h
  | succ fuel ih =>
    intro idx i h
    simp only [bucket_find] at h
    cases hidx : ws[idx]? with
    | none => rw [hidx] at h; cases h
    | some w =>
      rw [hidx] at h
      simp only [] at h
      have hlen : idx < ws.length := by
        rcases List.getElem?_eq_some_iff.mp hidx with ⟨hh, -⟩
        exact hh
      by_cases ha : w.addr = addr
      · rw [if_pos ha] at h
        cases h
        simp only [bucket_read]
        rw [List.getElem?_set_self hlen]
        simp only [] 
        rw [if_pos he]
        simp [hm]
      · rw [if_neg ha] at h
        cases hn : w.next with
        | none => rw [hn] at h; cases h
        | some j =>
          rw [hn] at h
          obtain ⟨wi, hwi, hwia⟩ := bucket_find_found_addr ws addr fuel j i h
          have hne : i ≠ idx := by
            intro hh
            subst hh
            rw [hidx] at hwi
            cases hwi
            exact ha hwia
          simp only [bucket_read]
          rw [List.getElem?_set_ne hne, hidx]
          simp only [] 
          rw [if_neg ha, hn]
          exact ih j i h

/-- Reading a bucket after a new entry for the address has been appended
behind the old tail walks to the new entry and returns its value. -/
theorem bucket_read_append_tail (ws : List w_entry) (mem : Nat → Nat) (addr : Nat)
    (e_new : w_entry) (hnew : e_new.addr = addr) (hm : e_new.mask ≠ 0) :
    ∀ fuel idx p tp, bucket_find ws addr fuel idx = .tail p →
      ws[p]? = some tp →
      bucket_read ((ws.set p { tp with next := some ws.length }) ++ [e_new]) mem addr
        (fuel + 1) idx = some e_new.value := by
  intro fuel
  induction fuel with
  | zero => intro idx p tp h hp; simp [bucket_find] at h
  | succ fuel ih =>
    intro idx p tp h hp
    simp only [bucket_find] at h
    cases hidx : ws[idx]? with
    | none => rw [hidx] at h; cases h
    | some w =>
      rw [hidx] at h
      simp only [] at h
      have hlen : idx < ws.length := by
        rcases List.getElem?_eq_some_iff.mp hidx with ⟨hh, -⟩
        exact hh
      have hsetlen : (ws.set p { tp with next := some ws.length }).length = ws.length :=
        List.length_set ws p _
      have hnewidx :
          ((ws.set p { tp with next := some ws.length }) ++ [e_new])[ws.length]? =
            some e_new := by
        rw [List.getElem?_append_right (by omega)]
        simp [hsetlen]
      by_cases ha : w.addr = addr
      · rw [if_pos ha] at h; cases h
      · rw [if_neg ha] at h
        cases hn : w.next with
        | none =>
          rw [hn] at h
          cases h
          rw [hidx] at hp
          injection hp with hpe
          subst hpe
          simp only [bucket_read]
          have h1 : ((ws.set idx { w with next := some ws.length }) ++ [e_new])[idx]? =
              some { w with next := some ws.length } := by
            rw [List.getElem?_append_left (by omega)]
            exact List.getElem?_set_self hlen
          rw [h1]
          simp only [] 
          rw [show ({ w with next := some ws.length } : w_entry).addr = w.addr from rfl]
          rw [if_neg ha]
          rw [hnewidx]
          simp only [] 
          rw [if_pos hnew]
          simp [hm]
        | some j =>
          rw [hn] at h
          obtain ⟨w', hw', -, hw'n⟩ := bucket_find_tail_entry ws addr fuel j p h
          have htp : tp.next = none := by
            rw [hp] at hw'
            cases hw'
            exact hw'n
          have hne : idx ≠ p := by
            intro hh
            subst hh
            rw [hidx] at hp
            cases hp
            rw [hn] at htp
            cases htp
          simp only [bucket_read]
          have h1 : ((ws.set p { tp with next := some ws.length }) ++ [e_new])[idx]? =
              some w := by
            rw [List.getElem?_append_left (by omega)]
            rw [List.getElem?_set_ne (fun hh => hne hh.symm)]
            exact hidx
          rw [h1]
          simp only [] 
          rw [if_neg ha, hn]
          exact ih j p tp h hp

theorem lor_ne_zero_of_right (a b : Nat) (hb : b ≠ 0) : a ||| b ≠ 0 := by
  obtain ⟨i, hi⟩ := Nat.ne_zero_implies_bit_true hb
  intro h
  have hcongr := congrArg (fun x => Nat.testBit x i) h
  simp [hi] at hcongr

/-- A load on a lock owned by this transaction is served entirely by the
bucket walk: no read-set append, no state change. -/
theorem read_from_owned (tx : stm_tx) (g : Global) (addr idx v : Nat)
    (hl : g.locks (LOCK_IDX addr) = .ownedSelf idx)
    (hidx : idx < tx.w_set.length)
    (hbr : bucket_read tx.w_set g.mem addr tx.w_set.length idx = some v) :
    stm_wbetl_read_invisible tx g addr = .ok v tx := by
  simp only [stm_wbetl_read_invisible]
  rw [hl]
  simp only []
  rw [if_pos hidx, hbr]

/-- C1: a top-level commit of a transaction with a non-empty write set
obtains the commit timestamp `t = FETCH_INC_CLOCK + 1`, leaving the clock
at `t = clock + 1`; read-set validation is performed exactly when
`start ≠ t - 1` — when `start = t - 1` the transaction publishes and
commits even if the read set would not validate — and when validation is
performed and fails the transaction rolls back with reason `VALIDATE`
and no write-set value reaches memory. -/
theorem commit_timestamp_validate (tx : stm_tx) (g : Global)
    (hn : tx.nesting = 1) (hw : tx.w_set.length ≠ 0) :
    (tx.start = g.clock ∨ stm_wbetl_validate tx g.locks = true →
      stm_wbetl_commit { tx with nesting := 0 } g =
        .ok { tx with nesting := 0 }
          (wbetl_commit_publish (g.clock + 1) tx.w_set
            { g with clock := g.clock + 1 }) ∧
      int_stm_commit tx g =
        .committed { tx with nesting := 0, status := TX_COMMITTED }
          (wbetl_commit_publish (g.clock + 1) tx.w_set
            { g with clock := g.clock + 1 }) ∧
      (wbetl_commit_publish (g.clock + 1) tx.w_set
        { g with clock := g.clock + 1 }).clock = g.clock + 1) ∧
    (tx.start ≠ g.clock → stm_wbetl_validate tx g.locks = false →
      stm_wbetl_commit { tx with nesting := 0 } g =
        .rolledBack STM_ABORT_VALIDATE
          (stm_rollback { tx with nesting := 0 }
            { g with clock := g.clock + 1 } STM_ABORT_VALIDATE).1
          (stm_rollback { tx with nesting := 0 }
            { g with clock := g.clock + 1 } STM_ABORT_VALIDATE).2 ∧
      (stm_rollback { tx with nesting := 0 }
        { g with clock := g.clock + 1 } STM_ABORT_VALIDATE).2.mem = g.mem) := by
  constructor
  · intro h
    have hcond : ¬(({ tx with nesting := 0 } : stm_tx).start ≠ (g.clock + 1) - 1 ∧
        ¬stm_wbetl_validate { tx with nesting := 0 }
          ({ g with clock := g.clock + 1 } : Global).locks = true) := by
      rcases h with h | h
      · rintro ⟨hc, -⟩
        exact hc (by simpa using h)
      · rintro ⟨-, hc⟩
        exact hc h
    have hok : stm_wbetl_commit { tx with nesting := 0 } g =
        .ok { tx with nesting := 0 }
          (wbetl_commit_publish (g.clock + 1) tx.w_set
            { g with clock := g.clock + 1 }) := by
      unfold stm_wbetl_commit
      rw [if_neg hcond]
    refine ⟨hok, ?_, publish_clock_eq (g.clock + 1) tx.w_set { g with clock := g.clock + 1 }⟩
    unfold int_stm_commit
    rw [if_neg (by omega : ¬0 < tx.nesting - 1), if_neg hw]
    have hn0 : tx.nesting - 1 = 0 := by omega
    rw [hn0, hok]
  · intro hs hv
    have hcond : (({ tx with nesting := 0 } : stm_tx).start ≠ (g.clock + 1) - 1 ∧
        ¬stm_wbetl_validate { tx with nesting := 0 }
          ({ g with clock := g.clock + 1 } : Global).locks = true) := by
      constructor
      · simpa using hs
      · have hv' : stm_wbetl_validate { tx with nesting := 0 }
            ({ g with clock := g.clock + 1 } : Global).locks = false := hv
        simp [hv']
    constructor
    · unfold stm_wbetl_commit
      rw [if_pos hcond]
    · exact stm_rollback_mem { tx with nesting := 0 }
        { g with clock := g.clock + 1 } STM_ABORT_VALIDATE

def txW1 : stm_tx :=
  { status := TX_ACTIVE, start := 3, end_ := 3,
    r_set := [⟨3, 1⟩], w_set := [⟨0, 7, WORD_FULL, 2, 0, none⟩], w_set_size := 4,
    nesting := 1, read_only := false, no_retry := false, has_writes := 1 }

def gW1ok : Global :=
  { mem := fun _ => 0, locks := fun L => if L = 0 then .ownedSelf 0 else .free 3,
    clock := 3 }

def gW1bad : Global :=
  { mem := fun _ => 0, locks := fun L => if L = 0 then .ownedSelf 0 else .free 9,
    clock := 5 }

/-- Commit of `txW1` against `gW1ok` (nobody committed since start: the
validation is skipped and the write publishes at timestamp 4); against
`gW1bad` the clock moved and lock 1's version no longer matches the read
set, so the commit rolls back with `VALIDATE` leaving memory untouched. -/
theorem commit_timestamp_validate_witness :
    (int_stm_commit txW1 gW1ok =
      .committed { txW1 with nesting := 0, status := TX_COMMITTED }
        (wbetl_commit_publish (gW1ok.clock + 1) txW1.w_set
          { gW1ok with clock := gW1ok.clock + 1 }) ∧
      (wbetl_commit_publish (gW1ok.clock + 1) txW1.w_set
        { gW1ok with clock := gW1ok.clock + 1 }).clock = gW1ok.clock + 1) ∧
    (stm_wbetl_commit { txW1 with nesting := 0 } gW1bad =
      .rolledBack STM_ABORT_VALIDATE
        (stm_rollback { txW1 with nesting := 0 }
          { gW1bad with clock := gW1bad.clock + 1 } STM_ABORT_VALIDATE).1
        (stm_rollback { txW1 with nesting := 0 }
          { gW1bad with clock := gW1bad.clock + 1 } STM_ABORT_VALIDATE).2 ∧
      (stm_rollback { txW1 with nesting := 0 }
        { gW1bad with clock := gW1bad.clock + 1 } STM_ABORT_VALIDATE).2.mem =
        gW1bad.mem) := by
  constructor
  · have h := (commit_timestamp_validate txW1 gW1ok rfl (by decide)).1 (Or.inl rfl)
    exact ⟨h.2.1, h.2.2⟩
  · exact (commit_timestamp_validate txW1 gW1bad rfl (by decide)).2
      (by decide) (by decide)

/-- C3: after a successful store with nonzero mask, a load of the same
address in the same transaction is served from the write set: it returns
the value of the returned write-set entry (for a full-mask store exactly
the stored value) and leaves the descriptor untouched — in particular it
appends nothing to the read set. -/
theorem read_after_write (tx : stm_tx) (g : Global) (addr value mask : Nat)
    (tx' : stm_tx) (g' : Global) (i : Nat)
    (hm : mask ≠ 0)
    (hw : stm_wbetl_write tx g addr value mask = .ok tx' g' i) :
    stm_wbetl_read_invisible tx' g' addr =
      .ok ((tx'.w_set.getD i default).value) tx' ∧
    (mask = WORD_FULL → (tx'.w_set.getD i default).value = value) := by
  simp only [stm_wbetl_write] at hw
  cases hl : g.locks (LOCK_IDX addr) with
  | ownedOther =>
    rw [hl] at hw
    simp only [] at hw
    cases hw
  | ownedSelf idx =>
    rw [hl] at hw
    simp only [] at hw
    by_cases hidx : idx < tx.w_set.length
    case neg => rw [if_neg hidx] at hw; cases hw
    rw [if_pos hidx, if_neg hm] at hw
    cases hfind : bucket_find tx.w_set addr tx.w_set.length idx with
    | bad => rw [hfind] at hw; cases hw
    | found k =>
      rw [hfind] at hw
      simp only [] at hw
      obtain ⟨w0, hw0, hw0a⟩ :=
        bucket_find_found_addr tx.w_set addr tx.w_set.length idx k hfind
      have hklen : k < tx.w_set.length := by
        rcases List.getElem?_eq_some_iff.mp hw0 with ⟨hh, -⟩
        exact hh
      have hgetd : tx.w_set.getD k default = w0 := by
        rw [List.getD_eq_getElem?_getD, hw0]
        rfl
      have hset : ∀ e : w_entry, (tx.w_set.set k e).getD k default = e := fun e => by
        rw [List.getD_eq_getElem?_getD, List.getElem?_set_self hklen]
        rfl
      injection hw with h1 h2 h3
      subst h1 h2 h3
      refine ⟨?_, ?_⟩
      · apply read_from_owned
        · exact hl
        · simpa [List.length_set] using hidx
        · simp only [List.length_set, hset]
          apply bucket_read_set_found
          · simpa [List.getD_eq_getElem?_getD, hw0] using hw0a
          · simp only []
            exact lor_ne_zero_of_right _ _ hm
          · exact hfind
      · intro hf
        subst hf
        rw [hset]
        simp
    | tail p =>
      rw [hfind] at hw
      simp only [] at hw
      by_cases hcap : tx.w_set.length = tx.w_set_size
      · rw [if_pos hcap] at hw; cases hw
      · rw [if_neg hcap] at hw
        simp only [do_write] at hw
        injection hw with h1 h2 h3
        subst h1 h2 h3
        obtain ⟨w', hw', hw'a, hw'n⟩ :=
          bucket_find_tail_entry tx.w_set addr tx.w_set.length idx p hfind
        have hgetd : tx.w_set.getD p default = w' := by
          rw [List.getD_eq_getElem?_getD, hw']
          rfl
        have hp : tx.w_set[p]? = some (tx.w_set.getD p default) := by
          rw [hgetd]
          exact hw'
        have hgetnew : ∀ e0 e : w_entry,
            ((tx.w_set.set p e0) ++ [e]).getD tx.w_set.length default = e := fun e0 e => by
          rw [List.getD_eq_getElem?_getD,
            List.getElem?_append_right (by simp [List.length_set])]
          simp [List.length_set]
        refine ⟨?_, ?_⟩
        · apply read_from_owned
          · exact hl
          · simp only [List.length_append, List.length_set]
            simp
            omega
          · simp only [List.length_append, List.length_set, List.length_cons,
              List.length_nil, hgetnew]
            exact bucket_read_append_tail tx.w_set g.mem addr _ rfl
              (by simp only []; exact hm) tx.w_set.length idx p
              (tx.w_set.getD p default) hfind hp
        · intro hf
          subst hf
          rw [hgetnew]
          simp [show (WORD_FULL : Nat) ≠ 0 from by decide]
  | free l =>
    rw [hl] at hw
    simp only [] at hw
    by_cases hv : tx.end_ < l ∧ (stm_has_read tx (LOCK_IDX addr)).isSome = true
    · rw [if_pos hv] at hw; cases hw
    · rw [if_neg hv] at hw
      by_cases hcap : tx.w_set.length = tx.w_set_size
      · rw [if_pos hcap] at hw; cases hw
      · rw [if_neg hcap] at hw
        simp only [do_write] at hw
        injection hw with h1 h2 h3
        subst h1 h2 h3
        have hgetnew : ∀ e : w_entry,
            (tx.w_set ++ [e]).getD tx.w_set.length default = e := fun e => by
          rw [List.getD_eq_getElem?_getD, List.getElem?_append_right (Nat.le_refl _)]
          simp
        refine ⟨?_, ?_⟩
        · refine read_from_owned _ _ _ tx.w_set.length _ ?_ ?_ ?_
          · simp [updFn]
          · simp
          · simp only [List.length_append, List.length_cons, List.length_nil, hgetnew]
            simp only [bucket_read]
            rw [List.getElem?_append_right (Nat.le_refl _)]
            simp [hm]
        · intro hf
          subst hf
          rw [hgetnew]
          simp [show (WORD_FULL : Nat) ≠ 0 from by decide]

def txW3 : stm_tx :=
  { status := TX_ACTIVE, start := 0, end_ := 0,
    r_set := [], w_set := [], w_set_size := 4,
    nesting := 1, read_only := false, no_retry := false, has_writes := 0 }

def gW3 : Global :=
  { mem := fun _ => 0, locks := fun _ => .free 0, clock := 0 }

/-- Store 5 at a fresh address, then load it back: the load returns 5 from
the write set, and the read set stays empty. -/
theorem read_after_write_witness :
    ∃ tx' g' i, stm_wbetl_write txW3 gW3 0 5 WORD_FULL = .ok tx' g' i ∧
      stm_wbetl_read_invisible tx' g' 0 =
        .ok ((tx'.w_set.getD i default).value) tx' ∧
      (tx'.w_set.getD i default).value = 5 ∧
      tx'.r_set = [] := by
  have heval : stm_wbetl_write txW3 gW3 0 5 WORD_FULL =
      .ok { txW3 with w_set := [⟨0, 5, WORD_FULL, 0, 0, none⟩], has_writes := 1 }
        { gW3 with locks := updFn gW3.locks 0 (.ownedSelf 0) } 0 := by
    simp only [stm_wbetl_write]
    rw [show gW3.locks (LOCK_IDX 0) = .free 0 from rfl]
    simp only []
    rw [if_neg (by simp [stm_has_read, txW3])]
    rw [if_neg (by simp [txW3])]
    simp only [do_write]
    rw [if_neg (by decide), if_neg (by simp)]
    rfl
  have h := read_after_write txW3 gW3 0 5 WORD_FULL _ _ _ (by decide) heval
  exact ⟨_, _, _, heval, h.1, h.2 rfl, rfl⟩

end TinySTM
